import Mathlib

/-!
Verification of `shockTube.py` (the-ABC-of-Cantera).

The script's own logic consists of three small numeric pieces:
  * `get_IDT` — the ignition-delay extractor (peak-slope detector for the
    temperature/pressure signals, argmax for a species signal);
  * the wall-velocity function `v` inside `run_cal_real`, a piecewise-constant
    derivative of a fixed 46-point (time, normalized volume) table;
  * the solver advance loops of `run_cal_ideal` / `run_cal_real`, and the
    `gas2 = gas` aliasing prefix of `run_cal_real`.

We embed these shallowly: Python/numpy floats become `ℚ`; numpy arrays become
`List ℚ`; a Python expression that would raise (an out-of-range index, an
argmax over an empty array, a slope with a zero time delta) is modelled by
`Option`, with `none` for the raising outcome.
-/

/-- The state history recorded by a run: the extra time column `t` together
with the per-sample temperature `T`, pressure `P`, and per-species
mass-fraction column `Y s` (what `solution_results(s).Y` yields). -/
structure SolutionResults where
  t : List ℚ
  T : List ℚ
  P : List ℚ
  Y : String → List ℚ

/-- Python's `str.upper()` restricted to what the script needs: uppercase each
character. -/
def pyUpper (s : String) : String := ⟨s.data.map Char.toUpper⟩

/-- `numpy.argmax` inner scan: current index `i`, best index `bi`, best value
`bv`; a later value replaces the best only when strictly greater, so the first
occurrence of the maximum is kept. -/
def argmaxGo : List ℚ → ℕ → ℕ → ℚ → ℕ
  | [], _, bi, _ => bi
  | x :: xs, i, bi, bv =>
    if bv < x then argmaxGo xs (i + 1) i x else argmaxGo xs (i + 1) bi bv

/-- `numpy.argmax`: first index of the maximum value; `none` on an empty array
(numpy raises there). -/
def argmaxFirst : List ℚ → Option ℕ
  | [] => none
  | x :: xs => some (argmaxGo xs 1 0 x)

/-- The slope loop of `get_IDT`:
`for i in range(len(t)-1): temp_scope = (y[i+1]-y[i])/(t[i+1]-t[i]);
 if temp_scope > scope_max: scope_max, tau_idt = temp_scope, t[i]`.
A zero time delta (undefined slope) is modelled as a failure (`none`). -/
def idtLoop : List ℚ → List ℚ → ℚ → ℚ → Option ℚ
  | t0 :: t1 :: ts, y0 :: y1 :: ys, scope_max, tau_idt =>
    if t1 - t0 = 0 then none
    else
      let temp_scope := (y1 - y0) / (t1 - t0)
      if scope_max < temp_scope then idtLoop (t1 :: ts) (y1 :: ys) temp_scope t0
      else idtLoop (t1 :: ts) (y1 :: ys) scope_max tau_idt
  | _, _, _, tau_idt => some tau_idt

/-- `y = solution_results.T if signal.upper() == 'T' else solution_results.P`. -/
def selectedSignal (solution_results : SolutionResults) (signal : String) : List ℚ :=
  if pyUpper signal = "T" then solution_results.T else solution_results.P

/-- `get_IDT(solution_results, signal)` from `shockTube.py` (lines 17-36):
for a species signal, the time at the argmax of its mass fraction; for `'T'`
or `'P'` (case-insensitive), the slope loop starting from
`tau_idt = 0, scope_max = 0`. -/
def get_IDT (solution_results : SolutionResults) (signal : String) : Option ℚ :=
  if pyUpper signal ∉ ["T", "P"] then
    match argmaxFirst (solution_results.Y signal) with
    | none => none
    | some i => solution_results.t.get? i
  else
    idtLoop solution_results.t (selectedSignal solution_results signal) 0 0

/-- The list of `(slope, preceding time)` pairs the slope loop ranges over:
entry `i` is `((y[i+1]-y[i])/(t[i+1]-t[i]), t[i])`. -/
def pairsOf : List ℚ → List ℚ → List (ℚ × ℚ)
  | t0 :: t1 :: ts, y0 :: y1 :: ys =>
    ((y1 - y0) / (t1 - t0), t0) :: pairsOf (t1 :: ts) (y1 :: ys)
  | _, _ => []

/-- The forward finite-difference slopes of signal `y` over times `t`. -/
def slopesOf (t y : List ℚ) : List ℚ := (pairsOf t y).map Prod.fst

/-- Pure accumulator scan underlying the slope loop: over `(value, payload)`
pairs, keep the payload of the first pair whose value strictly exceeds the
running maximum. -/
def scanPairs : List (ℚ × ℚ) → ℚ → ℚ → ℚ
  | [], _, tau => tau
  | p :: rest, m, tau =>
    if m < p.1 then scanPairs rest p.1 p.2 else scanPairs rest m tau

/-- `i` is the first index at which `l` attains its global maximum. -/
def IsFirstMaxAt (l : List ℚ) (i : ℕ) : Prop :=
  i < l.length ∧ (∀ j < l.length, l.getD j 0 ≤ l.getD i 0) ∧
    ∀ j < i, l.getD j 0 < l.getD i 0

/-- Row 0 of `V_t` in `run_cal_real.v`: the breakpoint times. -/
def V_t_times : List ℚ :=
  [0, 2.00e-4, 4.00e-4, 6.00e-4, 8.00e-4, 0.001, 0.0012, 0.0014, 0.0016, 0.0018,
   0.002, 0.0022, 0.0024, 0.0026, 0.0028, 0.003, 0.0032, 0.0034, 0.0036, 0.0038,
   0.004, 0.0042, 0.0044, 0.0046, 0.0048, 0.005, 0.0052, 0.0054, 0.0056, 0.0058,
   0.006, 0.0062, 0.0064, 0.0066, 0.0068, 0.007, 0.0072, 0.0074, 0.0076, 0.0078,
   0.008, 0.0082, 0.0084, 0.0086, 0.0088, 0.009]

/-- Row 1 of `V_t` in `run_cal_real.v`: the normalized volumes. -/
def V_t_vols : List ℚ :=
  [1, 0.990523087, 0.981281978, 0.972267286, 0.963470131, 0.95488211, 0.946495261,
   0.938302037, 0.930295277, 0.922468181, 0.91481429, 0.907327458, 0.900001842,
   0.892831873, 0.885812248, 0.878937911, 0.872204038, 0.865606022, 0.859139466,
   0.852800165, 0.846584099, 0.840487423, 0.834506453, 0.828637663, 0.822877673,
   0.817223244, 0.811671266, 0.806218758, 0.800862855, 0.795600807, 0.790429969,
   0.7853478, 0.780351855, 0.775439782, 0.770609317, 0.765858279, 0.761184567,
   0.756586156, 0.752061095, 0.747607501, 0.743223558, 0.738907513, 0.734657673,
   0.730472404, 0.726350127, 0.722289314]

/-- The table `V_t` as a list of `(time, volume)` breakpoints. -/
def V_t_table : List (ℚ × ℚ) := V_t_times.zip V_t_vols

/-- The search loop of `v`:
`for i in range(len(V_t[0])-1): if V_t[0][i] <= t < V_t[0][i+1]: return ...`,
scanning consecutive breakpoint pairs in order (first match wins) and
returning the discrete derivative of the matched interval. -/
def findInterval (t : ℚ) : List (ℚ × ℚ) → Option ℚ
  | p :: q :: rest =>
    if p.1 ≤ t ∧ t < q.1 then some ((q.2 - p.2) / (q.1 - p.1))
    else findInterval t (q :: rest)
  | _ => none

/-- The fall-through value of `v`:
`(V_t[1][-1] - V_t[1][-2]) / (V_t[0][-1] - V_t[0][-2])`, the discrete
derivative of the final breakpoint interval. -/
def lastSlope : ℚ :=
  (V_t_vols.getD (V_t_vols.length - 1) 0 - V_t_vols.getD (V_t_vols.length - 2) 0) /
    (V_t_times.getD (V_t_times.length - 1) 0 - V_t_times.getD (V_t_times.length - 2) 0)

/-- The discrete derivative of the first breakpoint interval. -/
def firstSlope : ℚ :=
  (V_t_vols.getD 1 0 - V_t_vols.getD 0 0) / (V_t_times.getD 1 0 - V_t_times.getD 0 0)

/-- The wall-velocity function `v(t)` of `run_cal_real` (lines 64-85): scan the
breakpoint intervals in order and return the matched interval's discrete
derivative, falling through to the final interval's derivative. -/
def v (t : ℚ) : ℚ :=
  match findInterval t V_t_table with
  | some dv => dv
  | none => lastSlope

/-- A gas object (`cantera.Solution`); only its composition matters for the
aliasing claim. -/
structure GasObj where
  X : String → ℚ

/-- The composition written by `gas2.X = {'H2': 1}`: pure hydrogen. -/
def pureH2 : String → ℚ := fun s => if s = "H2" then 1 else 0

/-- Observable outcome of the reactor-construction prefix of `run_cal_real`:
the composition snapshotted into each reactor at its construction, and the
final state of the caller-supplied gas object. -/
structure RealSetup where
  r1X : String → ℚ
  r2X : String → ℚ
  gasX : String → ℚ

/-- The prefix of `run_cal_real` (lines 56-62).  `ct.Reactor(contents=g)`
snapshots the gas object's current state into the new reactor (external
Cantera semantics); `gas2 = gas` binds a second name to the same object, so
`gas2.X = {'H2': 1}` mutates the caller's object in place, after `r1` was
constructed. -/
def run_cal_real_setup (gas : GasObj) : RealSetup :=
  let r1X := gas.X
  let gas2 := gas
  let gasAfter : GasObj := { gas2 with X := pureH2 }
  let r2X := gasAfter.X
  { r1X := r1X, r2X := r2X, gasX := gasAfter.X }

/-- The advance loop shared by `run_cal_ideal` and `run_cal_real`:
`t = 0; while t < end_time: t = reactorNetwork.step()`, where `step k` is the
simulation time returned by the `(k+1)`-th call to `reactorNetwork.step()`
(an external solver, supplied as a function).  Fuel-indexed: `none` means the
loop was still running when the fuel ran out. -/
def advanceLoop (step : ℕ → ℚ) (end_time : ℚ) : ℕ → ℕ → ℚ → Option ℚ
  | 0, _, t => if t < end_time then none else some t
  | fuel + 1, k, t =>
    if t < end_time then advanceLoop step end_time fuel (k + 1) (step k) else some t

/-! ### Lemmas about the interval search of `v` -/

lemma chain_head_le_getD :
    ∀ (p : ℚ × ℚ) (l : List (ℚ × ℚ)),
      (p :: l).Chain' (fun x y => x.1 < y.1) →
      ∀ i < (p :: l).length, p.1 ≤ (((p :: l).getD i (0, 0))).1 := by
  intro p l
  induction l generalizing p with
  | nil =>
    intro _ i hi
    have h0 : i = 0 := Nat.lt_one_iff.mp (by simpa using hi)
    subst h0
    simp [List.getD]
  | cons q l ih =>
    intro hch i hi
    rcases List.chain'_cons.mp hch with ⟨hpq, hch'⟩
    cases i with
    | zero => simp [List.getD]
    | succ i' =>
      have hi' : i' < (q :: l).length := by simpa using Nat.lt_of_succ_lt_succ hi
      calc p.1 ≤ q.1 := le_of_lt hpq
        _ ≤ ((q :: l).getD i' (0, 0)).1 := ih q hch' i' hi'

lemma findInterval_at_getD :
    ∀ (l : List (ℚ × ℚ)), l.Chain' (fun x y => x.1 < y.1) →
      ∀ i, i + 1 < l.length →
        findInterval ((l.getD i (0, 0)).1) l =
          some (((l.getD (i + 1) (0, 0)).2 - (l.getD i (0, 0)).2) /
            ((l.getD (i + 1) (0, 0)).1 - (l.getD i (0, 0)).1)) := by
  intro l
  induction l with
  | nil => intro _ i hi; simp at hi
  | cons a l ih =>
    intro hch i hi
    cases l with
    | nil => simp at hi
    | cons b rest =>
      rcases List.chain'_cons.mp hch with ⟨hab, hch'⟩
      cases i with
      | zero =>
        simp only [List.getD_cons_zero, List.getD_cons_succ, findInterval]
        rw [if_pos ⟨le_refl _, hab⟩]
      | succ i' =>
        have hi' : i' + 1 < (b :: rest).length := by simpa using Nat.lt_of_succ_lt_succ hi
        have hble : b.1 ≤ ((b :: rest).getD i' (0, 0)).1 :=
          chain_head_le_getD b rest hch' i' (Nat.lt_of_succ_lt hi')
        simp only [List.getD_cons_succ, findInterval]
        rw [if_neg (by rintro ⟨_, hlt⟩; exact absurd hble (not_le.mpr hlt))]
        exact ih hch' i' hi'

lemma findInterval_none_of_tail_le {t : ℚ} :
    ∀ l : List (ℚ × ℚ), (∀ p ∈ l.drop 1, p.1 ≤ t) → findInterval t l = none := by
  intro l
  induction l with
  | nil => intro _; rfl
  | cons a l ih =>
    intro h
    cases l with
    | nil => rfl
    | cons b rest =>
      have hb : b.1 ≤ t := h b (by simp)
      simp only [findInterval]
      rw [if_neg (by rintro ⟨_, hlt⟩; exact absurd hb (not_le.mpr hlt))]
      exact ih fun p hp => h p (by simpa using List.mem_cons_of_mem b hp)

lemma findInterval_none_of_lt {t : ℚ} :
    ∀ l : List (ℚ × ℚ), (∀ p ∈ l, t < p.1) → findInterval t l = none := by
  intro l
  induction l with
  | nil => intro _; rfl
  | cons a l ih =>
    intro h
    cases l with
    | nil => rfl
    | cons b rest =>
      have ha : t < a.1 := h a (by simp)
      simp only [findInterval]
      rw [if_neg (by rintro ⟨hle, _⟩; exact absurd hle (not_le.mpr ha))]
      exact ih fun p hp => h p (List.mem_cons_of_mem a hp)

lemma head_fst_le_of_mem :
    ∀ (a : ℚ × ℚ) (l : List (ℚ × ℚ)),
      (a :: l).Chain' (fun x y => x.1 < y.1) → ∀ p ∈ a :: l, a.1 ≤ p.1 := by
  intro a l
  induction l generalizing a with
  | nil =>
    intro _ p hp
    rcases List.mem_singleton.mp hp with rfl
    exact le_refl _
  | cons b rest ih =>
    intro hch p hp
    rcases List.chain'_cons.mp hch with ⟨hab, hch'⟩
    rcases List.mem_cons.mp hp with rfl | hp'
    · exact le_refl _
    · exact le_trans (le_of_lt hab) (ih b hch' p hp')

lemma mem_fst_le_last_of_chain :
    ∀ l : List (ℚ × ℚ), l.Chain' (fun x y => x.1 < y.1) →
      ∀ p ∈ l, p.1 ≤ (l.getD (l.length - 1) (0, 0)).1 := by
  intro l
  induction l with
  | nil => intro _ p hp; simp at hp
  | cons a l ih =>
    intro hch p hp
    cases l with
    | nil =>
      rcases List.mem_singleton.mp hp with rfl
      simp [List.getD]
    | cons b rest =>
      rcases List.chain'_cons.mp hch with ⟨hab, hch'⟩
      have hlen : (a :: b :: rest).length - 1 = ((b :: rest).length - 1) + 1 := by
        simp
      rw [hlen, List.getD_cons_succ]
      rcases List.mem_cons.mp hp with rfl | hp'
      · exact le_trans (le_of_lt hab) (ih hch' b (List.mem_cons_self b rest))
      · exact ih hch' p hp'

/-! ### Concrete facts about the `V_t` table -/

lemma V_t_table_sorted : V_t_table.Chain' (fun x y => x.1 < y.1) := by
  norm_num [V_t_table, V_t_times, V_t_vols, List.chain'_cons]

lemma V_t_table_last_fst : ((V_t_table.getD (V_t_table.length - 1) (0, 0))).1 = 0.009 := by
  norm_num [V_t_table, V_t_times, V_t_vols]

lemma V_t_table_head_fst : ((V_t_table.getD 0 (0, 0))).1 = 0 := by
  norm_num [V_t_table, V_t_times, V_t_vols]

lemma fst_nonneg_of_mem (l : List (ℚ × ℚ)) (hch : l.Chain' (fun x y => x.1 < y.1))
    (h0 : 0 ≤ (l.getD 0 (0, 0)).1) : ∀ p ∈ l, 0 ≤ p.1 := by
  cases l with
  | nil => intro p hp; simp at hp
  | cons a l' =>
    intro p hp
    exact le_trans (by simpa using h0) (head_fst_le_of_mem a l' hch p hp)

lemma v_eq_lastSlope_of_ge (t : ℚ) (ht : (0.009 : ℚ) ≤ t) : v t = lastSlope := by
  have hnone : findInterval t V_t_table = none := by
    refine findInterval_none_of_tail_le _ fun p hp => ?_
    have hmem : p ∈ V_t_table := List.mem_of_mem_drop hp
    have hle := mem_fst_le_last_of_chain V_t_table V_t_table_sorted p hmem
    rw [V_t_table_last_fst] at hle
    exact le_trans hle ht
  simp only [v, hnone]

lemma v_eq_lastSlope_of_neg (t : ℚ) (ht : t < 0) : v t = lastSlope := by
  have hnone : findInterval t V_t_table = none := by
    refine findInterval_none_of_lt _ fun p hp => ?_
    have h0 : (0 : ℚ) ≤ p.1 :=
      fst_nonneg_of_mem V_t_table V_t_table_sorted (le_of_eq V_t_table_head_fst.symm) p hp
    exact lt_of_lt_of_le ht h0
  simp only [v, hnone]

lemma v_at_0088 : v 0.0088 = lastSlope := by
  norm_num [v, findInterval, V_t_table, V_t_times, V_t_vols, lastSlope]

lemma lastSlope_ne_zero : lastSlope ≠ 0 := by
  norm_num [lastSlope, V_t_vols, V_t_times]

lemma lastSlope_ne_firstSlope : lastSlope ≠ firstSlope := by
  norm_num [lastSlope, firstSlope, V_t_vols, V_t_times]

/-! ### Claim C2 -/

/-- C2: for every query time lying at a table breakpoint `t_i` (other than the
last breakpoint), the wall velocity `v` returns the discrete derivative
`(V_{i+1} - V_i) / (t_{i+1} - t_i)` of the interval starting at that
breakpoint: membership is left-inclusive/right-exclusive and the first
matching interval wins, giving a piecewise-constant velocity. -/
theorem v_at_breakpoint (i : ℕ) (hi : i + 1 < V_t_table.length) :
    v ((V_t_table.getD i (0, 0)).1) =
      ((V_t_table.getD (i + 1) (0, 0)).2 - (V_t_table.getD i (0, 0)).2) /
        ((V_t_table.getD (i + 1) (0, 0)).1 - (V_t_table.getD i (0, 0)).1) := by
  have h := findInterval_at_getD V_t_table V_t_table_sorted i hi
  simp only [v, h]

/-- Witness for C2 at the first breakpoint. -/
theorem v_at_breakpoint_witness :
    v ((V_t_table.getD 0 (0, 0)).1) =
      ((V_t_table.getD 1 (0, 0)).2 - (V_t_table.getD 0 (0, 0)).2) /
        ((V_t_table.getD 1 (0, 0)).1 - (V_t_table.getD 0 (0, 0)).1) :=
  v_at_breakpoint 0 (by norm_num [V_t_table, V_t_times, V_t_vols])

/-! ### Claim C3 -/

/-- C3: for every query time at or beyond the last breakpoint (`0.009`), `v`
does not fail: it returns the discrete derivative of the final breakpoint
interval (clamp-extend), which equals the value obtained by querying inside
the last interval (at `0.0088`), and is a nonzero constant. -/
theorem v_clamp_extend (t : ℚ) (ht : (0.009 : ℚ) ≤ t) :
    v t = lastSlope ∧ v t = v 0.0088 ∧ v t ≠ 0 := by
  have h := v_eq_lastSlope_of_ge t ht
  exact ⟨h, h.trans v_at_0088.symm, h ▸ lastSlope_ne_zero⟩

/-- Witness for C3 at `t = 0.01`. -/
theorem v_clamp_extend_witness :
    v 0.01 = lastSlope ∧ v 0.01 = v 0.0088 ∧ v 0.01 ≠ 0 :=
  v_clamp_extend 0.01 (by norm_num)

/-! ### Claim C10 -/

/-- C10: `v` is total (it is a function `ℚ → ℚ`), and for every query time
strictly below the first breakpoint (`t < 0`) the search loop matches no
interval, so `v` falls through to the discrete derivative of the *final*
breakpoint interval — the same value as extrapolating beyond the last
breakpoint (e.g. at `0.01`) — and not the derivative of the first interval. -/
theorem v_total_before_first (t : ℚ) (ht : t < 0) :
    v t = lastSlope ∧ v t = v 0.01 ∧ v t ≠ firstSlope := by
  have h := v_eq_lastSlope_of_neg t ht
  have h01 : v 0.01 = lastSlope := v_eq_lastSlope_of_ge 0.01 (by norm_num)
  exact ⟨h, h.trans h01.symm, h ▸ lastSlope_ne_firstSlope⟩

/-- Witness for C10 at `t = -1`. -/
theorem v_total_before_first_witness :
    v (-1) = lastSlope ∧ v (-1) = v 0.01 ∧ v (-1) ≠ firstSlope :=
  v_total_before_first (-1) (by norm_num)

/-! ### Lemmas about the slope loop of `get_IDT` -/

lemma getD_rat_mem : ∀ (l : List ℚ) (j : ℕ), j < l.length → l.getD j 0 ∈ l := by
  intro l
  induction l with
  | nil => intro j hj; simp at hj
  | cons x xs ih =>
    intro j hj
    cases j with
    | zero => simp
    | succ j' =>
      simp only [List.getD_cons_succ]
      exact List.mem_cons_of_mem x (ih j' (Nat.lt_of_succ_lt_succ hj))

lemma getD_pair_mem : ∀ (l : List (ℚ × ℚ)) (j : ℕ), j < l.length → l.getD j (0, 0) ∈ l := by
  intro l
  induction l with
  | nil => intro j hj; simp at hj
  | cons x xs ih =>
    intro j hj
    cases j with
    | zero => simp
    | succ j' =>
      simp only [List.getD_cons_succ]
      exact List.mem_cons_of_mem x (ih j' (Nat.lt_of_succ_lt_succ hj))

lemma idtLoop_eq_scanPairs :
    ∀ (tl yl : List ℚ) (m tau : ℚ), tl.Chain' (fun a b => a ≠ b) →
      idtLoop tl yl m tau = some (scanPairs (pairsOf tl yl) m tau) := by
  intro tl
  induction tl with
  | nil => intro yl m tau _; cases yl <;> simp [idtLoop, pairsOf, scanPairs]
  | cons t0 tl ih =>
    intro yl m tau hch
    cases tl with
    | nil => cases yl with
      | nil => simp [idtLoop, pairsOf, scanPairs]
      | cons y0 yl' => cases yl' <;> simp [idtLoop, pairsOf, scanPairs]
    | cons t1 ts =>
      cases yl with
      | nil => simp [idtLoop, pairsOf, scanPairs]
      | cons y0 yl' =>
        cases yl' with
        | nil => simp [idtLoop, pairsOf, scanPairs]
        | cons y1 ys =>
          rcases List.chain'_cons.mp hch with ⟨hne01, hch'⟩
          have hne : t1 - t0 ≠ 0 := sub_ne_zero.mpr (Ne.symm hne01)
          simp only [idtLoop, pairsOf, scanPairs, if_neg hne]
          by_cases hlt : m < (y1 - y0) / (t1 - t0)
          · rw [if_pos hlt, if_pos hlt, ih (y1 :: ys) _ _ hch']
          · rw [if_neg hlt, if_neg hlt, ih (y1 :: ys) _ _ hch']

lemma scanPairs_eq_of_le :
    ∀ (l : List (ℚ × ℚ)) (m tau : ℚ), (∀ p ∈ l, p.1 ≤ m) → scanPairs l m tau = tau := by
  intro l
  induction l with
  | nil => intro m tau _; rfl
  | cons p rest ih =>
    intro m tau h
    have hp : p.1 ≤ m := h p (List.mem_cons_self p rest)
    simp only [scanPairs, if_neg (not_lt.mpr hp)]
    exact ih m tau fun q hq => h q (List.mem_cons_of_mem p hq)

lemma scanPairs_first_max :
    ∀ (l : List (ℚ × ℚ)) (m tau : ℚ), (∃ p ∈ l, m < p.1) →
      ∃ i : ℕ, i < l.length ∧ m < (l.getD i (0, 0)).1 ∧
        (∀ j < l.length, (l.getD j (0, 0)).1 ≤ (l.getD i (0, 0)).1) ∧
        (∀ j < i, (l.getD j (0, 0)).1 < (l.getD i (0, 0)).1) ∧
        scanPairs l m tau = (l.getD i (0, 0)).2 := by
  intro l
  induction l with
  | nil => intro m tau h; obtain ⟨p, hp, _⟩ := h; simp at hp
  | cons p rest ih =>
    intro m tau hex
    by_cases hmp : m < p.1
    · simp only [scanPairs, if_pos hmp]
      by_cases hrest : ∃ q ∈ rest, p.1 < q.1
      · obtain ⟨i, hilen, hlt, hmax, hfirst, heq⟩ := ih p.1 p.2 hrest
        refine ⟨i + 1, Nat.succ_lt_succ hilen, ?_, ?_, ?_, ?_⟩
        · simpa using lt_trans hmp hlt
        · intro j hj
          cases j with
          | zero => simpa using le_of_lt hlt
          | succ j' =>
            simp only [List.getD_cons_succ]
            exact hmax j' (Nat.lt_of_succ_lt_succ hj)
        · intro j hj
          cases j with
          | zero => simpa using hlt
          | succ j' =>
            simp only [List.getD_cons_succ]
            exact hfirst j' (Nat.lt_of_succ_lt_succ hj)
        · simpa using heq
      · push_neg at hrest
        refine ⟨0, Nat.succ_pos _, by simpa using hmp, ?_, fun j hj => absurd hj (Nat.not_lt_zero j), ?_⟩
        · intro j hj
          cases j with
          | zero => simp
          | succ j' =>
            simp only [List.getD_cons_succ, List.getD_cons_zero]
            exact hrest _ (getD_pair_mem rest j' (Nat.lt_of_succ_lt_succ hj))
        · simpa using scanPairs_eq_of_le rest p.1 p.2 hrest
    · have hpm : p.1 ≤ m := not_lt.mp hmp
      simp only [scanPairs, if_neg hmp]
      obtain ⟨q, hq, hqlt⟩ := hex
      have hqrest : q ∈ rest := by
        rcases List.mem_cons.mp hq with rfl | h'
        · exact absurd hqlt hmp
        · exact h'
      obtain ⟨i, hilen, hlt, hmax, hfirst, heq⟩ := ih m tau ⟨q, hqrest, hqlt⟩
      refine ⟨i + 1, Nat.succ_lt_succ hilen, by simpa using hlt, ?_, ?_, by simpa using heq⟩
      · intro j hj
        cases j with
        | zero => simpa using le_of_lt (lt_of_le_of_lt hpm hlt)
        | succ j' =>
          simp only [List.getD_cons_succ]
          exact hmax j' (Nat.lt_of_succ_lt_succ hj)
      · intro j hj
        cases j with
        | zero => simpa using lt_of_le_of_lt hpm hlt
        | succ j' =>
          simp only [List.getD_cons_succ]
          exact hfirst j' (Nat.lt_of_succ_lt_succ hj)

lemma map_fst_getD :
    ∀ (l : List (ℚ × ℚ)) (i : ℕ), i < l.length →
      (l.map Prod.fst).getD i 0 = (l.getD i (0, 0)).1 := by
  intro l
  induction l with
  | nil => intro i hi; simp at hi
  | cons p rest ih =>
    intro i hi
    cases i with
    | zero => simp
    | succ i' => simpa using ih i' (Nat.lt_of_succ_lt_succ hi)

lemma pairsOf_snd_getD :
    ∀ (tl yl : List ℚ) (i : ℕ), i < (pairsOf tl yl).length →
      ((pairsOf tl yl).getD i (0, 0)).2 = tl.getD i 0 := by
  intro tl
  induction tl with
  | nil => intro yl i hi; simp [pairsOf] at hi
  | cons t0 tl ih =>
    intro yl i hi
    cases tl with
    | nil => simp [pairsOf] at hi
    | cons t1 ts =>
      cases yl with
      | nil => simp [pairsOf] at hi
      | cons y0 yl' =>
        cases yl' with
        | nil => simp [pairsOf] at hi
        | cons y1 ys =>
          cases i with
          | zero => simp [pairsOf]
          | succ i' =>
            simp only [pairsOf, List.getD_cons_succ]
            exact ih (y1 :: ys) i' (by simpa [pairsOf] using Nat.lt_of_succ_lt_succ hi)

lemma idtLoop_result :
    ∀ (tl yl : List ℚ) (m tau r : ℚ), idtLoop tl yl m tau = some r → r = tau ∨ r ∈ tl := by
  intro tl
  induction tl with
  | nil => intro yl m tau r h; cases yl <;> simp [idtLoop] at h <;> exact Or.inl h.symm
  | cons t0 tl ih =>
    intro yl m tau r h
    cases tl with
    | nil =>
      left
      cases yl with
      | nil => simpa [idtLoop] using h.symm
      | cons y0 yl' => cases yl' <;> simpa [idtLoop] using h.symm
    | cons t1 ts =>
      cases yl with
      | nil => left; simpa [idtLoop] using h.symm
      | cons y0 yl' =>
        cases yl' with
        | nil => left; simpa [idtLoop] using h.symm
        | cons y1 ys =>
          simp only [idtLoop] at h
          by_cases hz : t1 - t0 = 0
          · rw [if_pos hz] at h; exact absurd h (by simp)
          · rw [if_neg hz] at h
            by_cases hlt : m < (y1 - y0) / (t1 - t0)
            · rw [if_pos hlt] at h
              rcases ih (y1 :: ys) _ _ _ h with rfl | hmem
              · exact Or.inr (List.mem_cons_self _ _)
              · exact Or.inr (List.mem_cons_of_mem _ hmem)
            · rw [if_neg hlt] at h
              rcases ih (y1 :: ys) _ _ _ h with rfl | hmem
              · exact Or.inl rfl
              · exact Or.inr (List.mem_cons_of_mem _ hmem)

/-! ### Lemmas about `argmaxGo` / `argmaxFirst` -/

lemma argmaxGo_spec :
    ∀ (xs : List ℚ) (k bi : ℕ) (bv : ℚ),
      (argmaxGo xs k bi bv = bi ∧ ∀ x ∈ xs, x ≤ bv) ∨
      (∃ j, j < xs.length ∧ argmaxGo xs k bi bv = k + j ∧ bv < xs.getD j 0 ∧
        (∀ j' < xs.length, xs.getD j' 0 ≤ xs.getD j 0) ∧
        ∀ j' < j, xs.getD j' 0 < xs.getD j 0) := by
  intro xs
  induction xs with
  | nil => intro k bi bv; exact Or.inl ⟨rfl, by simp⟩
  | cons x xs ih =>
    intro k bi bv
    by_cases hbx : bv < x
    · simp only [argmaxGo, if_pos hbx]
      rcases ih (k + 1) k x with ⟨heq, hall⟩ | ⟨j, hj, heq, hlt, hmax, hfirst⟩
      · refine Or.inr ⟨0, Nat.succ_pos _, by simpa using heq, by simpa using hbx, ?_,
          fun j' hj' => absurd hj' (Nat.not_lt_zero j')⟩
        intro j' hj'
        cases j' with
        | zero => simp
        | succ j'' =>
          simp only [List.getD_cons_succ, List.getD_cons_zero]
          exact hall _ (getD_rat_mem xs j'' (Nat.lt_of_succ_lt_succ hj'))
      · refine Or.inr ⟨j + 1, Nat.succ_lt_succ hj, by omega, ?_, ?_, ?_⟩
        · simpa using lt_trans hbx hlt
        · intro j' hj'
          cases j' with
          | zero => simpa using le_of_lt hlt
          | succ j'' =>
            simp only [List.getD_cons_succ]
            exact hmax j'' (Nat.lt_of_succ_lt_succ hj')
        · intro j' hj'
          cases j' with
          | zero => simpa using hlt
          | succ j'' =>
            simp only [List.getD_cons_succ]
            exact hfirst j'' (Nat.lt_of_succ_lt_succ hj')
    · have hxb : x ≤ bv := not_lt.mp hbx
      simp only [argmaxGo, if_neg hbx]
      rcases ih (k + 1) bi bv with ⟨heq, hall⟩ | ⟨j, hj, heq, hlt, hmax, hfirst⟩
      · refine Or.inl ⟨heq, ?_⟩
        intro x' hx'
        rcases List.mem_cons.mp hx' with rfl | h'
        · exact hxb
        · exact hall x' h'
      · refine Or.inr ⟨j + 1, Nat.succ_lt_succ hj, by omega, by simpa using hlt, ?_, ?_⟩
        · intro j' hj'
          cases j' with
          | zero => simpa using le_of_lt (lt_of_le_of_lt hxb hlt)
          | succ j'' =>
            simp only [List.getD_cons_succ]
            exact hmax j'' (Nat.lt_of_succ_lt_succ hj')
        · intro j' hj'
          cases j' with
          | zero => simpa using lt_of_le_of_lt hxb hlt
          | succ j'' =>
            simp only [List.getD_cons_succ]
            exact hfirst j'' (Nat.lt_of_succ_lt_succ hj')

lemma argmaxFirst_spec (xs : List ℚ) (hne : xs ≠ []) :
    ∃ i, argmaxFirst xs = some i ∧ IsFirstMaxAt xs i := by
  cases xs with
  | nil => exact absurd rfl hne
  | cons x rest =>
    rcases argmaxGo_spec rest 1 0 x with ⟨heq, hall⟩ | ⟨j, hj, heq, hlt, hmax, hfirst⟩
    · refine ⟨0, by simp [argmaxFirst, heq], Nat.succ_pos _, ?_,
        fun j' hj' => absurd hj' (Nat.not_lt_zero j')⟩
      intro j' hj'
      cases j' with
      | zero => simp
      | succ j'' =>
        simp only [List.getD_cons_succ, List.getD_cons_zero]
        exact hall _ (getD_rat_mem rest j'' (Nat.lt_of_succ_lt_succ hj'))
    · refine ⟨j + 1, by simp only [argmaxFirst, heq]; congr 1; omega,
        Nat.succ_lt_succ hj, ?_, ?_⟩
      · intro j' hj'
        cases j' with
        | zero => simpa using le_of_lt hlt
        | succ j'' =>
          simp only [List.getD_cons_succ]
          exact hmax j'' (Nat.lt_of_succ_lt_succ hj')
      · intro j' hj'
        cases j' with
        | zero => simpa using hlt
        | succ j'' =>
          simp only [List.getD_cons_succ]
          exact hfirst j'' (Nat.lt_of_succ_lt_succ hj')

/-! ### Slopes of a non-increasing signal over increasing times -/

lemma pairsOf_fst_nonpos :
    ∀ (tl yl : List ℚ), tl.Chain' (fun a b => a < b) →
      yl.Chain' (fun a b => b ≤ a) → ∀ p ∈ pairsOf tl yl, p.1 ≤ 0 := by
  intro tl
  induction tl with
  | nil => intro yl _ _ p hp; simp [pairsOf] at hp
  | cons t0 tl ih =>
    intro yl hct hcy p hp
    cases tl with
    | nil => simp [pairsOf] at hp
    | cons t1 ts =>
      cases yl with
      | nil => simp [pairsOf] at hp
      | cons y0 yl' =>
        cases yl' with
        | nil => simp [pairsOf] at hp
        | cons y1 ys =>
          rcases List.chain'_cons.mp hct with ⟨ht01, hct'⟩
          rcases List.chain'_cons.mp hcy with ⟨hy01, hcy'⟩
          rcases List.mem_cons.mp hp with rfl | hp'
          · have hnum : y1 - y0 ≤ 0 := sub_nonpos.mpr hy01
            have hden : (0 : ℚ) ≤ t1 - t0 := le_of_lt (sub_pos.mpr ht01)
            exact div_nonpos_iff.mpr (Or.inr ⟨hnum, hden⟩)
          · exact ih (y1 :: ys) hct' hcy' p hp'

/-! ### The advance loop -/

lemma advanceLoop_exits :
    ∀ (step : ℕ → ℚ) (end_time : ℚ) (fuel k : ℕ) (t : ℚ),
      (end_time ≤ t ∨ ∃ m, m < fuel ∧ end_time ≤ step (k + m)) →
      ∃ r, advanceLoop step end_time fuel k t = some r ∧ end_time ≤ r := by
  intro step end_time fuel
  induction fuel with
  | zero =>
    intro k t h
    rcases h with h | ⟨m, hm, _⟩
    · exact ⟨t, by simp [advanceLoop, if_neg (not_lt.mpr h)], h⟩
    · exact absurd hm (Nat.not_lt_zero m)
  | succ fuel ih =>
    intro k t h
    by_cases hlt : t < end_time
    · simp only [advanceLoop, if_pos hlt]
      rcases h with h | ⟨m, hm, hstep⟩
      · exact absurd hlt (not_lt.mpr h)
      · cases m with
        | zero => exact ih (k + 1) (step k) (Or.inl (by simpa using hstep))
        | succ m'' =>
          refine ih (k + 1) (step k) (Or.inr ⟨m'', Nat.lt_of_succ_lt_succ hm, ?_⟩)
          rw [show k + 1 + m'' = k + (m'' + 1) by omega]
          exact hstep
    · exact ⟨t, by simp [advanceLoop, if_neg hlt], not_lt.mp hlt⟩

lemma get?_eq_some_getD : ∀ (l : List ℚ) (i : ℕ), i < l.length → l.get? i = some (l.getD i 0) := by
  intro l
  induction l with
  | nil => intro i hi; simp at hi
  | cons x xs ih =>
    intro i hi
    cases i with
    | zero => rfl
    | succ i' => simpa using ih i' (Nat.lt_of_succ_lt_succ hi)

lemma mem_of_get?_eq_some : ∀ (l : List ℚ) (i : ℕ) (a : ℚ), l.get? i = some a → a ∈ l := by
  intro l
  induction l with
  | nil => intro i a h; simp [List.get?] at h
  | cons x xs ih =>
    intro i a h
    cases i with
    | zero =>
      simp only [List.get?] at h
      exact (Option.some.injEq _ _ ▸ h) ▸ List.mem_cons_self x xs
    | succ i' => exact List.mem_cons_of_mem x (ih i' a (by simpa using h))

/-! ### Claim C1 -/

/-- C1 (amended): for a history whose adjacent sample times are distinct, with
signal `'T'` or `'P'` (case-insensitive), *provided some forward slope is
positive* (the running maximum starts at the zero threshold), `get_IDT`
returns the time of the sample preceding the consecutive pair whose forward
finite-difference slope is maximal, the first such pair on ties — in
particular, for a strictly increasing linear ramp the first sample's time. -/
theorem get_IDT_slope_first_max (res : SolutionResults) (signal : String)
    (hsig : pyUpper signal ∈ ["T", "P"])
    (hadj : res.t.Chain' (fun a b => a ≠ b))
    (hpos : ∃ s ∈ slopesOf res.t (selectedSignal res signal), 0 < s) :
    ∃ i, IsFirstMaxAt (slopesOf res.t (selectedSignal res signal)) i ∧
      get_IDT res signal = some (res.t.getD i 0) := by
  have hnot : ¬(pyUpper signal ∉ ["T", "P"]) := not_not_intro hsig
  obtain ⟨s, hs, hspos⟩ := hpos
  obtain ⟨p, hpmem, hps⟩ := List.mem_map.mp hs
  have hpos' : ∃ p ∈ pairsOf res.t (selectedSignal res signal), (0 : ℚ) < p.1 :=
    ⟨p, hpmem, by rw [hps]; exact hspos⟩
  obtain ⟨i, hilen, hlt, hmax, hfirst, heq⟩ := scanPairs_first_max _ 0 0 hpos'
  refine ⟨i, ⟨by simpa [slopesOf] using hilen, ?_, ?_⟩, ?_⟩
  · intro j hj
    have hj' : j < (pairsOf res.t (selectedSignal res signal)).length := by
      simpa [slopesOf] using hj
    rw [slopesOf, map_fst_getD _ j hj', map_fst_getD _ i hilen]
    exact hmax j hj'
  · intro j hj
    have hj' : j < (pairsOf res.t (selectedSignal res signal)).length := lt_trans hj hilen
    rw [slopesOf, map_fst_getD _ j hj', map_fst_getD _ i hilen]
    exact hfirst j hj
  · simp only [get_IDT, if_neg hnot]
    rw [idtLoop_eq_scanPairs _ _ _ _ hadj, heq, pairsOf_snd_getD _ _ i hilen]

/-- A strictly increasing linear temperature ramp. -/
def rampCase : SolutionResults := ⟨[1, 2, 3], [300, 400, 500], [0, 0, 0], fun _ => []⟩

/-- Witness for C1 on a strictly increasing linear ramp. -/
theorem get_IDT_slope_first_max_witness :
    ∃ i, IsFirstMaxAt (slopesOf rampCase.t (selectedSignal rampCase "T")) i ∧
      get_IDT rampCase "T" = some (rampCase.t.getD i 0) :=
  get_IDT_slope_first_max rampCase "T" (by decide)
    (by norm_num [rampCase, List.chain'_cons])
    (by
      have hsel : selectedSignal rampCase "T" = [300, 400, 500] := by
        simp [selectedSignal, rampCase, show pyUpper "T" = "T" from rfl]
      have hsl : slopesOf rampCase.t (selectedSignal rampCase "T") = [100, 100] := by
        rw [hsel]
        norm_num [slopesOf, pairsOf, rampCase]
      rw [hsl]
      exact ⟨100, by simp, by norm_num⟩)

/-- A history with a strictly decreasing temperature signal. -/
def rampDown : SolutionResults := ⟨[1, 2], [2, 1], [0, 0], fun _ => []⟩

/-- Counterexample to C1 as stated: on the two-sample history with times
`[1, 2]` and temperatures `[2, 1]` the unique maximal-slope pair is the first
(and only) one, whose preceding sample time is `1`; but since its slope `-1`
never exceeds the zero-initialized running maximum, `get_IDT` returns the
default `0`, not `1`. -/
theorem get_IDT_slope_first_max_counterexample :
    get_IDT rampDown "T" = some 0 ∧
      IsFirstMaxAt (slopesOf rampDown.t (selectedSignal rampDown "T")) 0 ∧
      rampDown.t.getD 0 0 = 1 ∧ (1 : ℚ) ≠ 0 := by
  have hnot : ¬(pyUpper "T" ∉ ["T", "P"]) := by decide
  have hsel : selectedSignal rampDown "T" = [2, 1] := by
    simp [selectedSignal, rampDown, show pyUpper "T" = "T" from rfl]
  have hsl : slopesOf rampDown.t (selectedSignal rampDown "T") = [-1] := by
    rw [hsel]
    norm_num [slopesOf, pairsOf, rampDown]
  refine ⟨?_, ?_, by simp [rampDown], by norm_num⟩
  · simp only [get_IDT, if_neg hnot]
    rw [show rampDown.t = [1, 2] from rfl, hsel]
    norm_num [idtLoop]
  · rw [hsl]
    refine ⟨by norm_num, ?_, fun j hj => absurd hj (Nat.not_lt_zero j)⟩
    intro j hj
    have hj0 : j = 0 := by simpa [Nat.lt_one_iff] using hj
    subst hj0
    simp

/-! ### Claim C4 -/

/-- C4 (amended): for a history with fewer than two samples and signal `'T'`
or `'P'`, the slope loop performs no iterations, so no division happens at
all; `get_IDT` silently returns the default value `0` instead of failing. -/
theorem get_IDT_short_history (res : SolutionResults) (signal : String)
    (hsig : pyUpper signal ∈ ["T", "P"]) (hshort : res.t.length < 2) :
    get_IDT res signal = some 0 := by
  have hnot : ¬(pyUpper signal ∉ ["T", "P"]) := not_not_intro hsig
  simp only [get_IDT, if_neg hnot]
  cases htl : res.t with
  | nil => cases selectedSignal res signal <;> simp [idtLoop]
  | cons a rest =>
    have hrest : rest = [] := by
      rw [htl] at hshort
      simpa using List.eq_nil_of_length_eq_zero (by simpa using Nat.lt_succ_iff.mp hshort)
    subst hrest
    rcases selectedSignal res signal with _ | ⟨y0, yl⟩ <;> simp [idtLoop]

/-- A one-sample history. -/
def singleSample : SolutionResults := ⟨[5], [300], [101325], fun _ => [0]⟩

/-- Counterexample to C4 as stated: on a one-sample history with signal `'T'`
the function does not fail with a division fault — it returns the value
`some 0` (the loop body never runs, so no division is evaluated). -/
theorem get_IDT_short_history_counterexample :
    get_IDT singleSample "T" = some 0 ∧ get_IDT singleSample "T" ≠ none := by
  have h0 : get_IDT singleSample "T" = some 0 := rfl
  refine ⟨h0, ?_⟩
  rw [h0]
  simp

/-- Witness for (amended) C4 on the one-sample history. -/
theorem get_IDT_short_history_witness : get_IDT singleSample "T" = some 0 :=
  get_IDT_short_history singleSample "T" (by decide) (by norm_num [singleSample])

/-! ### Claim C6 -/

/-- C6: for a history with strictly increasing sample times whose selected
`'T'`/`'P'` signal is monotonically non-increasing (no forward slope is
positive), `get_IDT` returns the default value `0`; nothing else signals
"no ignition occurred". -/
theorem get_IDT_monotone_default (res : SolutionResults) (signal : String)
    (hsig : pyUpper signal ∈ ["T", "P"])
    (hmono : res.t.Chain' (fun a b => a < b))
    (hdec : (selectedSignal res signal).Chain' (fun a b => b ≤ a)) :
    get_IDT res signal = some 0 := by
  have hnot : ¬(pyUpper signal ∉ ["T", "P"]) := not_not_intro hsig
  have hadj : res.t.Chain' (fun a b => a ≠ b) :=
    List.Chain'.imp (fun a b h => ne_of_lt h) hmono
  simp only [get_IDT, if_neg hnot]
  rw [idtLoop_eq_scanPairs _ _ _ _ hadj,
    scanPairs_eq_of_le _ 0 0 (pairsOf_fst_nonpos _ _ hmono hdec)]

/-- A cooling history: temperature never rises. -/
def coolDown : SolutionResults := ⟨[0, 1, 2], [10, 5, 5], [0, 0, 0], fun _ => []⟩

/-- Witness for C6 on a non-increasing temperature history. -/
theorem get_IDT_monotone_default_witness : get_IDT coolDown "T" = some 0 :=
  get_IDT_monotone_default coolDown "T" (by decide)
    (by norm_num [coolDown, List.chain'_cons])
    (by
      have hsel : selectedSignal coolDown "T" = [10, 5, 5] := by
        simp [selectedSignal, coolDown, show pyUpper "T" = "T" from rfl]
      rw [hsel]
      norm_num [List.chain'_cons])

/-! ### Claim C7 -/

/-- C7: for a signal name other than `'T'` and `'P'` (case-insensitive) whose
mass-fraction column is non-empty (and no longer than the time column, as for
the aligned arrays of a recorded history), `get_IDT` returns the time of the
sample at which that species' mass fraction attains its global maximum over
the whole history — a pure argmax, ties resolved to the first occurrence. -/
theorem get_IDT_species_argmax (res : SolutionResults) (signal : String)
    (hsig : pyUpper signal ∉ ["T", "P"])
    (hne : res.Y signal ≠ [])
    (hlen : (res.Y signal).length ≤ res.t.length) :
    ∃ i, IsFirstMaxAt (res.Y signal) i ∧ get_IDT res signal = some (res.t.getD i 0) := by
  obtain ⟨i, hargeq, hfm⟩ := argmaxFirst_spec (res.Y signal) hne
  refine ⟨i, hfm, ?_⟩
  have hit : i < res.t.length := lt_of_lt_of_le hfm.1 hlen
  simp only [get_IDT, if_pos hsig, hargeq]
  exact get?_eq_some_getD res.t i hit

/-- A history with an `OH` mass-fraction column peaking (first) at index 1. -/
def speciesCase : SolutionResults :=
  ⟨[10, 20, 30], [0, 0, 0], [0, 0, 0], fun s => if s = "OH" then [1, 3, 3] else []⟩

/-- Witness for C7 on the `OH` history. -/
theorem get_IDT_species_argmax_witness :
    ∃ i, IsFirstMaxAt (speciesCase.Y "OH") i ∧
      get_IDT speciesCase "OH" = some (speciesCase.t.getD i 0) :=
  get_IDT_species_argmax speciesCase "OH" (by decide)
    (by simp [speciesCase]) (by norm_num [speciesCase])

/-! ### Claim C9 -/

/-- C9: for a history whose sample times are all non-negative, any value that
`get_IDT` returns is non-negative, whatever the signal: the slope branch
returns `0` or one of the sample times, and the species branch returns a
sample time. -/
theorem get_IDT_nonneg (res : SolutionResults) (signal : String)
    (hts : ∀ x ∈ res.t, 0 ≤ x) (val : ℚ)
    (hval : get_IDT res signal = some val) : 0 ≤ val := by
  by_cases hmem : pyUpper signal ∉ ["T", "P"]
  · simp only [get_IDT, if_pos hmem] at hval
    cases harg : argmaxFirst (res.Y signal) with
    | none => rw [harg] at hval; exact absurd hval (by simp)
    | some i =>
      rw [harg] at hval
      exact hts val (mem_of_get?_eq_some res.t i val hval)
  · simp only [get_IDT, if_neg hmem] at hval
    rcases idtLoop_result _ _ _ _ _ hval with rfl | hmemt
    · exact le_refl 0
    · exact hts val hmemt

/-- A minimal history starting at the time origin. -/
def originCase : SolutionResults := ⟨[0], [0], [0], fun _ => []⟩

/-- Witness for C9 on the minimal history. -/
theorem get_IDT_nonneg_witness : (0 : ℚ) ≤ 0 :=
  get_IDT_nonneg originCase "T" (by simp [originCase]) 0 rfl

/-! ### Claim C5 -/

/-- C5: `run_cal_real` binds `gas2` to the caller's gas object itself and then
forces `gas2.X = {'H2': 1}`, so (i) the second reactor's initial composition
is pure hydrogen regardless of what the caller set, (ii) the shared base gas
object is mutated in place to pure hydrogen, and (iii) the first reactor —
constructed *before* the overwrite — still carries the caller's composition
(the order-dependent side effect). -/
theorem run_cal_real_gas2_alias (gas : GasObj) :
    (run_cal_real_setup gas).r2X = pureH2 ∧ (run_cal_real_setup gas).gasX = pureH2 ∧
      (run_cal_real_setup gas).r1X = gas.X :=
  ⟨rfl, rfl, rfl⟩

/-! ### Claim C8 -/

/-- C8: under the precondition that the external solver's successive step
times are strictly increasing and grow without bound, the advance loop of
`run_cal_ideal`/`run_cal_real` terminates (some finite fuel suffices), the
simulation time at loop exit is at least the caller-supplied end time, and
the simulation time is monotonically non-decreasing across successive steps. -/
theorem advance_loops_terminate (step : ℕ → ℚ) (end_time : ℚ)
    (hmono : StrictMono step) (hub : ∀ B : ℚ, ∃ n, B ≤ step n) :
    (∃ fuel r, advanceLoop step end_time fuel 0 0 = some r ∧ end_time ≤ r) ∧
      ∀ i j : ℕ, i ≤ j → step i ≤ step j := by
  constructor
  · obtain ⟨n, hn⟩ := hub end_time
    obtain ⟨r, hr, hle⟩ :=
      advanceLoop_exits step end_time (n + 1) 0 0
        (Or.inr ⟨n, Nat.lt_succ_self n, by simpa using hn⟩)
    exact ⟨n + 1, r, hr, hle⟩
  · exact fun i j hij => hmono.monotone hij

/-- Witness for C8 with the solver stub `step n = n + 1` and end time `3`. -/
theorem advance_loops_terminate_witness :
    (∃ fuel r, advanceLoop (fun n : ℕ => (n : ℚ) + 1) 3 fuel 0 0 = some r ∧ (3 : ℚ) ≤ r) ∧
      ∀ i j : ℕ, i ≤ j → ((i : ℚ) + 1) ≤ ((j : ℚ) + 1) :=
  advance_loops_terminate (fun n : ℕ => (n : ℚ) + 1) 3
    (fun a b hab => by
      have h : (a : ℚ) < (b : ℚ) := by exact_mod_cast hab
      simpa using h)
    (fun B =>
      ⟨⌈B⌉₊, le_trans (Nat.le_ceil B) (by simp)⟩)

/-- A caller-supplied base gas: the DMM/O2/N2 mixture of the sweep driver. -/
def sweepGas : GasObj := ⟨fun s => if s = "O2" then 1 else 0⟩

/-- Witness for C5 on a concrete caller-supplied gas. -/
theorem run_cal_real_gas2_alias_witness :
    (run_cal_real_setup sweepGas).r2X = pureH2 ∧
      (run_cal_real_setup sweepGas).gasX = pureH2 ∧
      (run_cal_real_setup sweepGas).r1X = sweepGas.X :=
  run_cal_real_gas2_alias sweepGas
